import Mathlib

/-!
Verification of the ragged-array utility core of `text_search`
(`textsearch/python/csrc/utils.cc` and the kernels it binds).

The pybind wrapper in `utils.cc` derives `num_elems = (int32_t)row_ids_buf.size`
and `num_rows = (int32_t)(row_splits_buf.size - 1)` and forwards the raw buffers
to the kernels `RowIdsToRowSplits` and `GetNew2Old` declared in
`textsearch/csrc/utils.h`.  The kernels themselves are not part of the sources
at hand, so they are modelled from the specification (§4.1 and §4.2): a single
fused validation-and-fill pass for the row-id conversion, and a single
filtering pass for the mask compaction.
-/

namespace TextSearch

/-- Count of elements of `l` that are strictly below `r` (the spec's
"count of elements with row-id < r"). -/
def countLt (l : List ℕ) (r : ℕ) : ℕ :=
  l.countP fun v => decide (v < r)

/-- Modelled from the spec: the `RowIdsToRowSplits` kernel declared in
`textsearch/csrc/utils.h` is absent from the sources.  Following §4.1 and §7,
this is the single linear pass with fused validation: `i` is the position of
the next element, `p` is one more than the previous row id (`0` before any
element).  When the row id advances to `v`, slots `p .. v` of the output are
filled with the current position; a decrease (`v + 1 < p`) or an out-of-range
id (`numRows ≤ v`) aborts with the offending index and value; at the end the
remaining tail slots are filled with `num_elems`. -/
def rowSplitsAux (numRows : ℕ) : List ℕ → ℕ → ℕ → Except (ℕ × ℕ) (List ℕ)
  | [], i, p => .ok (List.replicate (numRows + 1 - p) i)
  | v :: rest, i, p =>
    if v + 1 < p ∨ numRows ≤ v then
      .error (i, v)
    else
      match rowSplitsAux numRows rest (i + 1) (v + 1) with
      | .error e => .error e
      | .ok tail => .ok (List.replicate (v + 1 - p) i ++ tail)

/-- Modelled from the spec: top-level row-ids → row-splits conversion
(`RowIdsToRowSplits` with the spec's §4.1 contract, `num_rows : usize`). -/
def rowIdsToRowSplits (rowIds : List ℕ) (numRows : ℕ) : Except (ℕ × ℕ) (List ℕ) :=
  rowSplitsAux numRows rowIds 0 0

/-- The spec's output guarantee, stated as its own definition (§4.1): slot `r`
holds the count of elements with row-id `< r`, for `r = 0 .. num_rows`. -/
def rowSplitsBySpec (rowIds : List ℕ) (numRows : ℕ) : List ℕ :=
  (List.range (numRows + 1)).map fun r => countLt rowIds r

/-- Validity of a row-ids input (spec §4.1 preconditions): every value in
`[0, num_rows)` and the sequence non-decreasing. -/
def ValidRowIds (rowIds : List ℕ) (numRows : ℕ) : Prop :=
  (∀ v ∈ rowIds, v < numRows) ∧ List.Sorted (· ≤ ·) rowIds

instance (rowIds : List ℕ) (numRows : ℕ) : Decidable (ValidRowIds rowIds numRows) := by
  unfold ValidRowIds List.Sorted
  infer_instance

/-- Modelled from the spec: the `GetNew2Old` kernel declared in
`textsearch/csrc/utils.h` is absent from the sources.  Following §4.2 this is
the single linear pass appending the current index whenever the mask holds;
`i` is the index of the head of the remaining mask. -/
def getNew2OldAux : List Bool → ℕ → List ℕ
  | [], _ => []
  | b :: rest, i =>
    if b then i :: getNew2OldAux rest (i + 1) else getNew2OldAux rest (i + 1)

/-- Modelled from the spec: top-level mask compaction (`GetNew2Old`). -/
def GetNew2Old (keep : List Bool) : List ℕ :=
  getNew2OldAux keep 0

/-- Two's-complement narrowing to `int32_t`, as performed by
`int32_t num_elems = row_ids_buf.size;` and
`int32_t num_rows = row_splits_buf.size - 1;` in the wrapper. -/
def toInt32 (n : ℤ) : ℤ :=
  (n + 2 ^ 31) % 2 ^ 32 - 2 ^ 31

/-- One kernel invocation as produced by the `row_ids_to_row_splits` wrapper
lambda (utils.cc lines 38-56): the two narrowed sizes plus the forwarded
row-ids buffer.  The lambda body contains no branch and no early return, so
every call yields exactly this invocation. -/
structure KernelInvocation where
  num_elems : ℤ
  num_rows : ℤ
  row_ids : List ℕ
  deriving DecidableEq

/-- The wrapper body: derive `num_elems = (int32_t)len(row_ids)` and
`num_rows = (int32_t)(len(row_splits) - 1)` (the subtraction happens in the
signed 64-bit `ssize_t` before narrowing) and invoke the kernel. -/
def bindingInvocation (rowIds rowSplitsBuf : List ℕ) : KernelInvocation :=
  { num_elems := toInt32 rowIds.length
    num_rows := toInt32 ((rowSplitsBuf.length : ℤ) - 1)
    row_ids := rowIds }

/-- Observable buffer state of a full `row_ids_to_row_splits` call: the
row-ids buffer is read through a `const` pointer, and the row-splits buffer is
the only storage written — with the kernel output on success, while a detected
violation aborts before the result is produced. -/
def rowIdsToRowSplitsCall (rowIds rowSplitsBuf : List ℕ) : List ℕ × List ℕ :=
  match rowIdsToRowSplits rowIds (rowSplitsBuf.length - 1) with
  | .ok out => (rowIds, out)
  | .error _ => (rowIds, rowSplitsBuf)

/-- Observable buffer state of a `get_new2old` call: the mask is read through
a `const` pointer and the result is a freshly allocated array. -/
def getNew2OldCall (keep : List Bool) : List Bool × List ℕ :=
  (keep, GetNew2Old keep)

/-- Expansion of a row-splits array back to row ids (spec §8 round-trip):
row `r` repeated `S[r+1] - S[r]` times. -/
def rowSplitsToRowIds (S : List ℕ) : List ℕ :=
  (List.range (S.length - 1)).flatMap fun r =>
    List.replicate (S.getD (r + 1) 0 - S.getD r 0) r

/-- Validity of a row-splits array (spec §3): non-empty (length
`num_rows + 1`), first slot `0`, non-decreasing. -/
def ValidRowSplits (S : List ℕ) : Prop :=
  S ≠ [] ∧ S.getD 0 0 = 0 ∧ ∀ i, i + 1 < S.length → S.getD i 0 ≤ S.getD (i + 1) 0

/-! ### Lemmas about the mask compaction -/

theorem getNew2OldAux_eq_map (keep : List Bool) (i : ℕ) :
    getNew2OldAux keep i = (getNew2OldAux keep 0).map (· + i) := by
  induction keep generalizing i with
  | nil => rfl
  | cons b rest ih =>
    cases b with
    | false =>
      simp only [getNew2OldAux, Bool.false_eq_true, if_false]
      rw [ih (i + 1), ih 1, List.map_map]
      congr 1
      funext x
      simp only [Function.comp_apply]
      omega
    | true =>
      simp only [getNew2OldAux, if_true, List.map_cons, Nat.zero_add]
      rw [ih (i + 1), ih 1, List.map_map]
      congr 1
      apply List.map_congr_left
      intro x _
      show x + (i + 1) = x + 1 + i
      omega

theorem GetNew2Old_cons (b : Bool) (rest : List Bool) :
    GetNew2Old (b :: rest) =
      if b then 0 :: (GetNew2Old rest).map (· + 1) else (GetNew2Old rest).map (· + 1) := by
  cases b <;> simp [GetNew2Old, getNew2OldAux, getNew2OldAux_eq_map rest 1]

theorem length_getNew2OldAux (keep : List Bool) (i : ℕ) :
    (getNew2OldAux keep i).length = keep.count true := by
  induction keep generalizing i with
  | nil => rfl
  | cons b rest ih => cases b <;> simp [getNew2OldAux, ih, List.count_cons]

theorem mem_GetNew2Old (keep : List Bool) (j : ℕ) :
    j ∈ GetNew2Old keep ↔ j < keep.length ∧ keep.getD j false = true := by
  induction keep generalizing j with
  | nil => simp [GetNew2Old, getNew2OldAux]
  | cons b rest ih =>
    rw [GetNew2Old_cons]
    cases b with
    | true =>
      cases j with
      | zero => simp
      | succ k =>
        simp only [if_true, List.mem_cons, List.mem_map, List.length_cons,
          List.getD_cons_succ]
        constructor
        · rintro (h | ⟨a, ha, hak⟩)
          · omega
          · have hk : a = k := by omega
            subst hk
            have h2 := (ih a).mp ha
            exact ⟨by omega, h2.2⟩
        · rintro ⟨hlt, hget⟩
          exact Or.inr ⟨k, (ih k).mpr ⟨by omega, hget⟩, rfl⟩
    | false =>
      cases j with
      | zero => simp
      | succ k =>
        simp only [Bool.false_eq_true, if_false, List.mem_map, List.length_cons,
          List.getD_cons_succ]
        constructor
        · rintro ⟨a, ha, hak⟩
          have hk : a = k := by omega
          subst hk
          have h2 := (ih a).mp ha
          exact ⟨by omega, h2.2⟩
        · rintro ⟨hlt, hget⟩
          exact ⟨k, (ih k).mpr ⟨by omega, hget⟩, rfl⟩

theorem sorted_GetNew2Old (keep : List Bool) :
    List.Sorted (· < ·) (GetNew2Old keep) := by
  induction keep with
  | nil => exact List.sorted_nil
  | cons b rest ih =>
    rw [GetNew2Old_cons]
    have hmap : List.Sorted (· < ·) ((GetNew2Old rest).map (· + 1)) := by
      rw [List.Sorted, List.pairwise_map]
      exact ih.imp (by omega)
    cases b with
    | false => simpa using hmap
    | true =>
      simp only [if_true]
      refine List.sorted_cons.mpr ⟨fun y hy => ?_, hmap⟩
      rcases List.mem_map.mp hy with ⟨a, _, rfl⟩
      omega

theorem GetNew2Old_replicate_true (n : ℕ) :
    GetNew2Old (List.replicate n true) = List.range n := by
  induction n with
  | zero => rfl
  | succ k ih =>
    rw [List.replicate_succ, GetNew2Old_cons, if_pos rfl, ih, List.range_succ_eq_map]

theorem GetNew2Old_replicate_false (n : ℕ) :
    GetNew2Old (List.replicate n false) = [] := by
  induction n with
  | zero => rfl
  | succ k ih =>
    rw [List.replicate_succ, GetNew2Old_cons]
    simpa using ih

theorem GetNew2Old_eq_filter (keep : List Bool) :
    GetNew2Old keep = (List.range keep.length).filter (fun i => keep.getD i false) := by
  induction keep with
  | nil => rfl
  | cons b rest ih =>
    rw [GetNew2Old_cons, List.length_cons, List.range_succ_eq_map, List.filter_cons,
      List.filter_map]
    have hcomp : ((fun i => (b :: rest).getD i false) ∘ Nat.succ) =
        fun i => rest.getD i false := by
      funext i
      simp
    rw [hcomp, ← ih]
    cases b <;> simp [Nat.succ_eq_add_one]

/-! ### Lemmas about the row-splits conversion -/

theorem countLt_nil (r : ℕ) : countLt [] r = 0 := rfl

theorem countLt_cons (a : ℕ) (t : List ℕ) (r : ℕ) :
    countLt (a :: t) r = countLt t r + if a < r then 1 else 0 := by
  rw [countLt, List.countP_cons, countLt]
  by_cases ha : a < r <;> simp [ha]

theorem countLt_zero (l : List ℕ) : countLt l 0 = 0 := by
  induction l with
  | nil => rfl
  | cons a t ih => rw [countLt_cons, ih]; simp

theorem countLt_eq_zero {l : List ℕ} {r : ℕ} (h : ∀ v ∈ l, r ≤ v) :
    countLt l r = 0 := by
  induction l with
  | nil => rfl
  | cons a t ih =>
    rw [countLt_cons, ih fun v hv => h v (List.mem_cons_of_mem a hv)]
    have := h a (List.mem_cons_self a t)
    rw [if_neg (by omega)]

theorem rowSplitsAux_ok_bound {numRows : ℕ} {l : List ℕ} {i p : ℕ} {out : List ℕ}
    (h : rowSplitsAux numRows l i p = .ok out) : ∀ v ∈ l, p ≤ v + 1 := by
  induction l generalizing i p out with
  | nil => intro v hv; cases hv
  | cons w rest ih =>
    intro v hv
    simp only [rowSplitsAux] at h
    by_cases hc : w + 1 < p ∨ numRows ≤ w
    · rw [if_pos hc] at h; cases h
    · rw [if_neg hc] at h
      push_neg at hc
      rcases List.mem_cons.mp hv with rfl | hv'
      · omega
      · cases hrec : rowSplitsAux numRows rest (i + 1) (w + 1) with
        | error e => rw [hrec] at h; cases h
        | ok tail =>
          have := ih hrec v hv'
          omega

theorem rowSplitsAux_eq_ok {numRows : ℕ} (l : List ℕ) (i p : ℕ)
    (hb : ∀ v ∈ l, p ≤ v + 1 ∧ v < numRows) (hs : List.Sorted (· ≤ ·) l) :
    rowSplitsAux numRows l i p =
      .ok ((List.range' p (numRows + 1 - p)).map fun r => i + countLt l r) := by
  induction l generalizing i p with
  | nil =>
    simp only [rowSplitsAux]
    congr 1
    have h1 : ((List.range' p (numRows + 1 - p)).map fun r => i + countLt [] r)
        = (List.range' p (numRows + 1 - p)).map fun _ => i := by
      apply List.map_congr_left
      intro r _
      rw [countLt_nil]
      omega
    rw [h1, List.map_const', List.length_range']
  | cons w rest ih =>
    have hw1 : p ≤ w + 1 := (hb w (List.mem_cons_self w rest)).1
    have hw2 : w < numRows := (hb w (List.mem_cons_self w rest)).2
    have hnot : ¬(w + 1 < p ∨ numRows ≤ w) := by omega
    have hble : ∀ v ∈ rest, w ≤ v := (List.sorted_cons.mp hs).1
    have hsrest : List.Sorted (· ≤ ·) rest := (List.sorted_cons.mp hs).2
    have hrec := ih (i + 1) (w + 1)
      (fun v hv => ⟨by have := hble v hv; omega, (hb v (List.mem_cons_of_mem w hv)).2⟩)
      hsrest
    rw [show numRows + 1 - (w + 1) = numRows - w by omega] at hrec
    simp only [rowSplitsAux, if_neg hnot, hrec]
    have hsplit : List.range' p (numRows + 1 - p) =
        List.range' p (w + 1 - p) ++ List.range' (w + 1) (numRows - w) := by
      have h2 := List.range'_append p (w + 1 - p) (numRows - w) 1
      rw [show p + 1 * (w + 1 - p) = w + 1 by omega] at h2
      rw [show numRows - w + (w + 1 - p) = numRows + 1 - p by omega] at h2
      exact h2.symm
    rw [hsplit, List.map_append]
    congr 1
    congr 1
    · have h3 : ∀ r ∈ List.range' p (w + 1 - p),
          i + countLt (w :: rest) r = (fun _ => i) r := by
        intro r hr
        rw [List.mem_range'_1] at hr
        have hcz : countLt (w :: rest) r = 0 := by
          apply countLt_eq_zero
          intro v hv
          rcases List.mem_cons.mp hv with rfl | hv'
          · omega
          · have := hble v hv'; omega
        simp [hcz]
      rw [List.map_congr_left h3, List.map_const', List.length_range']
    · apply List.map_congr_left
      intro r hr
      rw [List.mem_range'_1] at hr
      rw [countLt_cons, if_pos (by omega : w < r)]
      omega

theorem rowIdsToRowSplits_eq {rowIds : List ℕ} {numRows : ℕ}
    (h : ValidRowIds rowIds numRows) :
    rowIdsToRowSplits rowIds numRows = .ok (rowSplitsBySpec rowIds numRows) := by
  obtain ⟨hb, hs⟩ := h
  rw [rowIdsToRowSplits, rowSplitsAux_eq_ok rowIds 0 0 (fun v hv => ⟨by omega, hb v hv⟩) hs]
  congr 1
  rw [rowSplitsBySpec, Nat.sub_zero, List.range_eq_range']
  apply List.map_congr_left
  intro r _
  omega

theorem rowSplitsAux_ok_valid {numRows : ℕ} {l : List ℕ} {i p : ℕ} {out : List ℕ}
    (h : rowSplitsAux numRows l i p = .ok out) :
    (∀ v ∈ l, v < numRows) ∧ List.Sorted (· ≤ ·) l := by
  induction l generalizing i p out with
  | nil => exact ⟨fun v hv => absurd hv (List.not_mem_nil v), List.sorted_nil⟩
  | cons w rest ih =>
    simp only [rowSplitsAux] at h
    by_cases hc : w + 1 < p ∨ numRows ≤ w
    · rw [if_pos hc] at h; cases h
    · rw [if_neg hc] at h
      push_neg at hc
      cases hrec : rowSplitsAux numRows rest (i + 1) (w + 1) with
      | error e => rw [hrec] at h; cases h
      | ok tail =>
        obtain ⟨hb', hs'⟩ := ih hrec
        have hble := rowSplitsAux_ok_bound hrec
        refine ⟨?_, List.sorted_cons.mpr ⟨fun v hv => by have := hble v hv; omega, hs'⟩⟩
        intro v hv
        rcases List.mem_cons.mp hv with rfl | hv'
        · omega
        · exact hb' v hv'

theorem rowSplitsAux_error {numRows : ℕ} {l : List ℕ} {i p j v : ℕ}
    (h : rowSplitsAux numRows l i p = .error (j, v)) :
    i ≤ j ∧ l.getD (j - i) 0 = v ∧
      (numRows ≤ v ∨ (j = i ∧ v + 1 < p) ∨ (i < j ∧ v < l.getD (j - i - 1) 0)) := by
  induction l generalizing i p with
  | nil => simp [rowSplitsAux] at h
  | cons w rest ih =>
    simp only [rowSplitsAux] at h
    by_cases hc : w + 1 < p ∨ numRows ≤ w
    · rw [if_pos hc] at h
      simp only [Except.error.injEq, Prod.mk.injEq] at h
      obtain ⟨rfl, rfl⟩ := h
      refine ⟨Nat.le_refl _, by simp, ?_⟩
      rcases hc with hc | hc
      · exact Or.inr (Or.inl ⟨rfl, hc⟩)
      · exact Or.inl hc
    · rw [if_neg hc] at h
      push_neg at hc
      cases hrec : rowSplitsAux numRows rest (i + 1) (w + 1) with
      | ok tail => rw [hrec] at h; cases h
      | error e =>
        rw [hrec] at h
        cases h
        obtain ⟨hij, hget, hdis⟩ := ih hrec
        refine ⟨by omega, ?_, ?_⟩
        · rw [show j - i = j - (i + 1) + 1 by omega, List.getD_cons_succ]
          exact hget
        · rcases hdis with h1 | ⟨rfl, h2⟩ | ⟨h3, h4⟩
          · exact Or.inl h1
          · refine Or.inr (Or.inr ⟨by omega, ?_⟩)
            rw [show i + 1 - i - 1 = 0 by omega, List.getD_cons_zero]
            omega
          · refine Or.inr (Or.inr ⟨by omega, ?_⟩)
            rw [show j - i - 1 = j - (i + 1) - 1 + 1 by omega, List.getD_cons_succ]
            exact h4

theorem rowIdsToRowSplits_error_of_invalid {rowIds : List ℕ} {numRows : ℕ}
    (h : ¬ValidRowIds rowIds numRows) :
    ∃ j v, rowIdsToRowSplits rowIds numRows = .error (j, v) ∧
      rowIds.getD j 0 = v ∧ (numRows ≤ v ∨ (0 < j ∧ v < rowIds.getD (j - 1) 0)) := by
  cases hres : rowIdsToRowSplits rowIds numRows with
  | ok out => exact absurd (rowSplitsAux_ok_valid hres) h
  | error e =>
    obtain ⟨j, v⟩ := e
    obtain ⟨hij, hget, hdis⟩ := rowSplitsAux_error hres
    refine ⟨j, v, rfl, by simpa using hget, ?_⟩
    rcases hdis with h1 | ⟨rfl, h2⟩ | ⟨h3, h4⟩
    · exact Or.inl h1
    · omega
    · exact Or.inr ⟨by omega, by simpa using h4⟩

/-! ### Lemmas for the round trip -/

theorem countP_replicate (p : Nat → Bool) (k a : Nat) :
    List.countP p (List.replicate k a) = if p a then k else 0 := by
  induction k with
  | zero => simp
  | succ m ih =>
    rw [List.replicate_succ, List.countP_cons, ih]
    by_cases h : p a <;> simp [h]

-- sortedness of the expansion
theorem sorted_flatMap_replicate (c : ℕ → ℕ) (n : ℕ) :
    List.Sorted (· ≤ ·) ((List.range n).flatMap fun r => List.replicate (c r) r) := by
  induction n with
  | zero => exact List.sorted_nil
  | succ k ih =>
    rw [List.range_succ, List.flatMap_append]
    rw [List.Sorted, List.pairwise_append]
    refine ⟨ih, ?_, ?_⟩
    · simp only [List.flatMap_cons, List.flatMap_nil, List.append_nil]
      rw [List.pairwise_replicate]
      right
      exact Nat.le_refl k
    · intro a ha b hb
      simp only [List.flatMap_cons, List.flatMap_nil, List.append_nil] at hb
      rcases List.mem_flatMap.mp ha with ⟨r, hr, har⟩
      have ha' := List.eq_of_mem_replicate har
      have hb' := List.eq_of_mem_replicate hb
      have hrk : r < k := List.mem_range.mp hr
      omega

-- membership bound
theorem mem_flatMap_replicate {c : ℕ → ℕ} {n v : ℕ}
    (h : v ∈ (List.range n).flatMap fun r => List.replicate (c r) r) : v < n := by
  rcases List.mem_flatMap.mp h with ⟨r, hr, hvr⟩
  have := List.eq_of_mem_replicate hvr
  subst this
  exact List.mem_range.mp hr

-- countLt of the expansion: sum over segments
theorem countLt_flatMap_replicate (c : ℕ → ℕ) (n r : ℕ) :
    countLt ((List.range n).flatMap fun x => List.replicate (c x) x) r
      = ((List.range n).map fun x => if x < r then c x else 0).sum := by
  rw [countLt, List.flatMap, List.countP_flatten, List.map_map]
  congr 1
  apply List.map_congr_left
  intro x _
  simp only [Function.comp_apply]
  rw [countP_replicate]
  by_cases h : x < r <;> simp [h]

-- truncate the ranged sum at r
theorem sum_map_ite_lt (g : ℕ → ℕ) (r n : ℕ) (h : r ≤ n) :
    ((List.range n).map fun x => if x < r then g x else 0).sum
      = ((List.range r).map g).sum := by
  induction n with
  | zero =>
    have : r = 0 := by omega
    subst this
    rfl
  | succ k ih =>
    by_cases hr : r = k + 1
    · subst hr
      congr 1
      apply List.map_congr_left
      intro x hx
      rw [List.mem_range] at hx
      rw [if_pos hx]
    · have hr' : r ≤ k := by omega
      rw [List.range_succ, List.map_append, List.sum_append, ih hr']
      simp [if_neg (show ¬ k < r by omega)]

-- telescoping sum of truncated differences
theorem sum_range_sub_telescope (f : ℕ → ℕ) (r : ℕ)
    (hmono : ∀ i, i < r → f i ≤ f (i + 1)) :
    ((List.range r).map fun i => f (i + 1) - f i).sum = f r - f 0 ∧ f 0 ≤ f r := by
  induction r with
  | zero => simp
  | succ k ih =>
    obtain ⟨h1, h2⟩ := ih fun i hi => hmono i (by omega)
    have hk := hmono k (by omega)
    rw [List.range_succ, List.map_append, List.sum_append, h1]
    constructor
    · simp
      omega
    · omega

theorem countLt_mono (l : List ℕ) {r s : ℕ} (h : r ≤ s) : countLt l r ≤ countLt l s := by
  induction l with
  | nil => exact Nat.le_refl _
  | cons a t ih =>
    rw [countLt_cons, countLt_cons]
    by_cases h1 : a < r
    · rw [if_pos h1, if_pos (by omega)]
      omega
    · rw [if_neg h1]
      by_cases h2 : a < s
      · rw [if_pos h2]; omega
      · rw [if_neg h2]; omega

theorem countLt_succ_of_not_mem {l : List ℕ} {r : ℕ} (h : r ∉ l) :
    countLt l (r + 1) = countLt l r := by
  induction l with
  | nil => rfl
  | cons a t ih =>
    rw [countLt_cons, countLt_cons, ih fun hm => h (List.mem_cons_of_mem a hm)]
    have ha : a ≠ r := fun he => h (he ▸ List.mem_cons_self a t)
    by_cases h1 : a < r
    · rw [if_pos h1, if_pos (by omega)]
    · rw [if_neg h1, if_neg (by omega)]

theorem countLt_eq_length {l : List ℕ} {r : ℕ} (h : ∀ v ∈ l, v < r) :
    countLt l r = l.length := by
  induction l with
  | nil => rfl
  | cons a t ih =>
    rw [countLt_cons, ih fun v hv => h v (List.mem_cons_of_mem a hv),
      if_pos (h a (List.mem_cons_self a t))]
    simp

theorem rowSplitsBySpec_length (rowIds : List ℕ) (numRows : ℕ) :
    (rowSplitsBySpec rowIds numRows).length = numRows + 1 := by
  rw [rowSplitsBySpec, List.length_map, List.length_range]

theorem rowSplitsBySpec_getD (rowIds : List ℕ) {numRows r : ℕ} (h : r ≤ numRows) :
    (rowSplitsBySpec rowIds numRows).getD r 0 = countLt rowIds r := by
  have hlt : r < (rowSplitsBySpec rowIds numRows).length := by
    rw [rowSplitsBySpec_length]; omega
  rw [List.getD_eq_getElem _ _ hlt]
  simp [rowSplitsBySpec]

/-! ### Lemmas about the int32 narrowing in the wrapper -/

theorem toInt32_bounds (m : ℤ) : -(2 ^ 31) ≤ toInt32 m ∧ toInt32 m < 2 ^ 31 := by
  rw [toInt32]
  have h1 : (0 : ℤ) ≤ (m + 2 ^ 31) % 2 ^ 32 :=
    Int.emod_nonneg _ (by norm_num)
  have h2 : (m + 2 ^ 31) % 2 ^ 32 < 2 ^ 32 :=
    Int.emod_lt_of_pos _ (by norm_num)
  omega

theorem toInt32_eq_self {m : ℤ} : toInt32 m = m ↔ -(2 ^ 31) ≤ m ∧ m < 2 ^ 31 := by
  constructor
  · intro h
    have := toInt32_bounds m
    omega
  · rintro ⟨ha, hb⟩
    rw [toInt32, Int.emod_eq_of_lt (by omega) (by omega)]
    omega

/-! ### Round trip -/

theorem roundTrip (S : List ℕ) (h : ValidRowSplits S) :
    rowIdsToRowSplits (rowSplitsToRowIds S) (S.length - 1) = .ok S := by
  obtain ⟨hne, h0, hmono⟩ := h
  have hlen : S.length = (S.length - 1) + 1 := by
    cases S with
    | nil => exact absurd rfl hne
    | cons a T => simp
  have hvalid : ValidRowIds (rowSplitsToRowIds S) (S.length - 1) := by
    constructor
    · intro v hv
      exact mem_flatMap_replicate hv
    · exact sorted_flatMap_replicate _ _
  rw [rowIdsToRowSplits_eq hvalid]
  congr 1
  apply List.ext_getElem
  · rw [rowSplitsBySpec_length]
    omega
  · intro r h1 h2
    rw [rowSplitsBySpec_length] at h1
    simp only [rowSplitsBySpec, List.getElem_map, List.getElem_range]
    rw [rowSplitsToRowIds, countLt_flatMap_replicate, sum_map_ite_lt _ _ _ (by omega)]
    have hm : ∀ i, i < r → S.getD i 0 ≤ S.getD (i + 1) 0 := by
      intro i hi
      exact hmono i (by omega)
    obtain ⟨hsum, _⟩ := sum_range_sub_telescope (fun i => S.getD i 0) r hm
    rw [hsum, h0, Nat.sub_zero]
    exact List.getD_eq_getElem S 0 h2

/-! ### Claims -/

/-- C1: for every row-ids input meeting the preconditions (all values in
`[0, num_rows)`, non-decreasing), the conversion succeeds and slot `r` of the
produced row-splits holds the count of elements with row-id `< r` for every
`r ≤ num_rows`; in particular slot `0` is `0`, slot `num_rows` is `num_elems`,
and for an empty input every slot is `0`. -/
theorem claim_C1_row_splits_values (rowIds : List ℕ) (numRows : ℕ)
    (h : ValidRowIds rowIds numRows) :
    ∃ rs, rowIdsToRowSplits rowIds numRows = .ok rs ∧
      rs.length = numRows + 1 ∧
      (∀ r, r ≤ numRows → rs.getD r 0 = countLt rowIds r) ∧
      rs.getD 0 0 = 0 ∧
      rs.getD numRows 0 = rowIds.length ∧
      (rowIds = [] → ∀ x ∈ rs, x = 0) := by
  refine ⟨rowSplitsBySpec rowIds numRows, rowIdsToRowSplits_eq h,
    rowSplitsBySpec_length _ _, fun r hr => rowSplitsBySpec_getD _ hr, ?_, ?_, ?_⟩
  · rw [rowSplitsBySpec_getD _ (Nat.zero_le _), countLt_zero]
  · rw [rowSplitsBySpec_getD _ (Nat.le_refl _), countLt_eq_length h.1]
  · rintro rfl x hx
    rcases List.mem_map.mp hx with ⟨r, _, rfl⟩
    exact countLt_nil r

/-- Witness for C1 at the spec's example input `[0,0,2,2]`, `num_rows = 3`. -/
theorem claim_C1_witness :
    ∃ rs, rowIdsToRowSplits [0, 0, 2, 2] 3 = .ok rs ∧
      rs.length = 3 + 1 ∧
      (∀ r, r ≤ 3 → rs.getD r 0 = countLt [0, 0, 2, 2] r) ∧
      rs.getD 0 0 = 0 ∧
      rs.getD 3 0 = [0, 0, 2, 2].length ∧
      ([0, 0, 2, 2] = ([] : List ℕ) → ∀ x ∈ rs, x = 0) :=
  claim_C1_row_splits_values [0, 0, 2, 2] 3 (by decide)

/-- C2: the compaction of a boolean mask has length equal to the number of
`true` entries, contains exactly the indices at which the mask is `true`, in
strictly increasing order; empty and all-false masks give an empty output and
the all-true mask of length `n` gives `0, 1, …, n-1`. -/
theorem claim_C2_mask_compaction (keep : List Bool) :
    (GetNew2Old keep).length = keep.count true ∧
    (∀ i, i ∈ GetNew2Old keep ↔ i < keep.length ∧ keep.getD i false = true) ∧
    List.Sorted (· < ·) (GetNew2Old keep) ∧
    GetNew2Old [] = [] ∧
    (∀ n, GetNew2Old (List.replicate n false) = []) ∧
    (∀ n, GetNew2Old (List.replicate n true) = List.range n) :=
  ⟨length_getNew2OldAux keep 0, mem_GetNew2Old keep, sorted_GetNew2Old keep, rfl,
    GetNew2Old_replicate_false, GetNew2Old_replicate_true⟩

/-- C3: expanding a valid row-splits array `S` to row ids (row `r` repeated
`S[r+1] - S[r]` times) and converting back with the same `num_rows`
reproduces `S` exactly. -/
theorem claim_C3_round_trip (S : List ℕ) (h : ValidRowSplits S) :
    rowIdsToRowSplits (rowSplitsToRowIds S) (S.length - 1) = .ok S :=
  roundTrip S h

/-- Witness for C3 at `S = [0,2,2,4]`. -/
theorem claim_C3_witness :
    rowIdsToRowSplits (rowSplitsToRowIds [0, 2, 2, 4]) ([0, 2, 2, 4].length - 1) =
      .ok [0, 2, 2, 4] :=
  claim_C3_round_trip [0, 2, 2, 4]
    ⟨by decide, by decide, by
      intro i hi
      have hi3 : i < 3 := by
        simp only [List.length_cons, List.length_nil] at hi
        omega
      interval_cases i <;> decide⟩

/-- C4: every invalid row-ids input (a value out of `[0, num_rows)` or a
decrease) is rejected with an error identifying an offending index and value,
the caller-visible buffer is not touched, and in particular `[1, 0]` is
rejected at index 1, value 0. -/
theorem claim_C4_invalid_rejected :
    (∀ (rowIds : List ℕ) (numRows : ℕ), ¬ValidRowIds rowIds numRows →
      ∃ j v, rowIdsToRowSplits rowIds numRows = .error (j, v) ∧
        rowIds.getD j 0 = v ∧
        (numRows ≤ v ∨ (0 < j ∧ v < rowIds.getD (j - 1) 0)) ∧
        ∀ buf : List ℕ, buf.length = numRows + 1 →
          (rowIdsToRowSplitsCall rowIds buf).2 = buf) ∧
    rowIdsToRowSplits [1, 0] 2 = .error (1, 0) := by
  constructor
  · intro rowIds numRows h
    obtain ⟨j, v, herr, hget, hdis⟩ := rowIdsToRowSplits_error_of_invalid h
    refine ⟨j, v, herr, hget, hdis, ?_⟩
    intro buf hbuf
    rw [rowIdsToRowSplitsCall, show buf.length - 1 = numRows by omega, herr]
  · rfl

/-- Witness for C4 at the spec's decreasing example `[1, 0]`. -/
theorem claim_C4_witness :
    ∃ j v, rowIdsToRowSplits [1, 0] 2 = .error (j, v) ∧
      [1, 0].getD j 0 = v ∧
      (2 ≤ v ∨ (0 < j ∧ v < [1, 0].getD (j - 1) 0)) ∧
      ∀ buf : List ℕ, buf.length = 2 + 1 →
        (rowIdsToRowSplitsCall [1, 0] buf).2 = buf :=
  claim_C4_invalid_rejected.1 [1, 0] 2 (by decide)

/-- C5 counterexample: the wrapper performs no shape validation.  The
zero-length row-splits buffer has a length that equals `num_rows + 1` for no
`num_rows`, so under the claim the call would have to be rejected as
InvalidShape before any computation; instead the wrapper still produces a
kernel invocation, handing the kernel `num_rows = -1`. -/
theorem claim_C5_counterexample :
    (¬∃ n : ℕ, ([] : List ℕ).length = n + 1) ∧
    bindingInvocation [] [] = ⟨0, -1, []⟩ := by
  constructor
  · rintro ⟨n, hn⟩
    simp at hn
  · decide

/-- C5 amended: the wrapper has no InvalidShape rejection and needs none for
non-empty buffers: `num_rows` is derived as `len(row_splits) - 1`, so whenever
the buffer is non-empty (and its length fits in int32) the shape relation
`len(row_splits) = num_rows + 1` holds by construction; a zero-length buffer
is not rejected but forwarded to the kernel with `num_rows = -1`. -/
theorem claim_C5_amended (rowIds rowSplitsBuf : List ℕ) :
    (bindingInvocation rowIds rowSplitsBuf).row_ids = rowIds ∧
    (rowSplitsBuf = [] → (bindingInvocation rowIds rowSplitsBuf).num_rows = -1) ∧
    (1 ≤ rowSplitsBuf.length → (rowSplitsBuf.length : ℤ) ≤ 2 ^ 31 →
      (rowSplitsBuf.length : ℤ) = (bindingInvocation rowIds rowSplitsBuf).num_rows + 1 ∧
      0 ≤ (bindingInvocation rowIds rowSplitsBuf).num_rows) := by
  refine ⟨rfl, ?_, ?_⟩
  · rintro rfl
    show toInt32 (((([] : List ℕ)).length : ℤ) - 1) = -1
    decide
  · intro h1 h2
    have hcast : (1 : ℤ) ≤ (rowSplitsBuf.length : ℤ) := by exact_mod_cast h1
    have hb : toInt32 ((rowSplitsBuf.length : ℤ) - 1) = (rowSplitsBuf.length : ℤ) - 1 :=
      toInt32_eq_self.mpr ⟨by omega, by omega⟩
    constructor
    · show (rowSplitsBuf.length : ℤ) = toInt32 ((rowSplitsBuf.length : ℤ) - 1) + 1
      rw [hb]
      omega
    · show (0 : ℤ) ≤ toInt32 ((rowSplitsBuf.length : ℤ) - 1)
      rw [hb]
      omega

/-- Witness for the amended C5 at a buffer of length 2. -/
theorem claim_C5_amended_witness :
    ((([0, 0] : List ℕ).length : ℤ) = (bindingInvocation [0] [0, 0]).num_rows + 1 ∧
      0 ≤ (bindingInvocation [0] [0, 0]).num_rows) :=
  (claim_C5_amended [0] [0, 0]).2.2 (by decide) (by decide)

/-- C6: on valid input the produced row-splits array is non-decreasing, starts
at `0`, ends at `num_elems`, and every empty row `r` satisfies
`row_splits[r] = row_splits[r+1]`; the spec's examples `[0,0,2,2]` with
`num_rows = 3` and `[0,2]` with `num_rows = 3` give `[0,2,2,4]` and
`[0,1,1,2]`. -/
theorem claim_C6_monotone :
    (∀ (rowIds : List ℕ) (numRows : ℕ), ValidRowIds rowIds numRows →
      ∃ rs, rowIdsToRowSplits rowIds numRows = .ok rs ∧
        (∀ r, r < numRows → rs.getD r 0 ≤ rs.getD (r + 1) 0) ∧
        rs.getD 0 0 = 0 ∧ rs.getD numRows 0 = rowIds.length ∧
        (∀ r, r < numRows → r ∉ rowIds → rs.getD r 0 = rs.getD (r + 1) 0)) ∧
    rowIdsToRowSplits [0, 0, 2, 2] 3 = .ok [0, 2, 2, 4] ∧
    rowIdsToRowSplits [0, 2] 3 = .ok [0, 1, 1, 2] := by
  refine ⟨?_, rfl, rfl⟩
  intro rowIds numRows h
  refine ⟨rowSplitsBySpec rowIds numRows, rowIdsToRowSplits_eq h, ?_, ?_, ?_, ?_⟩
  · intro r hr
    rw [rowSplitsBySpec_getD _ (by omega), rowSplitsBySpec_getD _ (by omega)]
    exact countLt_mono rowIds (by omega)
  · rw [rowSplitsBySpec_getD _ (Nat.zero_le _), countLt_zero]
  · rw [rowSplitsBySpec_getD _ (Nat.le_refl _), countLt_eq_length h.1]
  · intro r hr hmem
    rw [rowSplitsBySpec_getD _ (by omega), rowSplitsBySpec_getD _ (by omega),
      countLt_succ_of_not_mem hmem]

/-- Witness for C6 at the spec's empty-interior-row example `[0, 2]`,
`num_rows = 3`. -/
theorem claim_C6_witness :
    ∃ rs, rowIdsToRowSplits [0, 2] 3 = .ok rs ∧
      (∀ r, r < 3 → rs.getD r 0 ≤ rs.getD (r + 1) 0) ∧
      rs.getD 0 0 = 0 ∧ rs.getD 3 0 = [0, 2].length ∧
      (∀ r, r < 3 → r ∉ [0, 2] → rs.getD r 0 = rs.getD (r + 1) 0) :=
  claim_C6_monotone.1 [0, 2] 3 (by decide)

/-- C7: the mask compaction is total — every boolean input, the empty one
included, yields a result, namely the filter of the index range by the mask,
whose size never exceeds the input size; there is no error outcome. -/
theorem claim_C7_no_error (keep : List Bool) :
    GetNew2Old keep = (List.range keep.length).filter (fun i => keep.getD i false) ∧
    (GetNew2Old keep).length ≤ keep.length := by
  refine ⟨GetNew2Old_eq_filter keep, ?_⟩
  rw [GetNew2Old_eq_filter keep]
  calc ((List.range keep.length).filter fun i => keep.getD i false).length
      ≤ (List.range keep.length).length := List.length_filter_le _ _
    _ = keep.length := List.length_range _

/-- C8: both operations are deterministic pure functions — equal inputs give
equal observable post-states, and the only state beside the declared output
(the row-splits buffer, resp. the returned array) is the unchanged input. -/
theorem claim_C8_deterministic (a₁ a₂ b₁ b₂ : List ℕ) (k₁ k₂ : List Bool)
    (ha : a₁ = a₂) (hb : b₁ = b₂) (hk : k₁ = k₂) :
    rowIdsToRowSplitsCall a₁ b₁ = rowIdsToRowSplitsCall a₂ b₂ ∧
    getNew2OldCall k₁ = getNew2OldCall k₂ ∧
    (rowIdsToRowSplitsCall a₁ b₁).1 = a₁ ∧
    (getNew2OldCall k₁).1 = k₁ := by
  subst ha
  subst hb
  subst hk
  refine ⟨rfl, rfl, ?_, rfl⟩
  rcases hres : rowIdsToRowSplits a₁ (b₁.length - 1) with e | out <;>
    simp [rowIdsToRowSplitsCall, hres]

/-- Witness for C8 at concrete equal inputs. -/
theorem claim_C8_witness :
    rowIdsToRowSplitsCall [0] [0, 0] = rowIdsToRowSplitsCall [0] [0, 0] ∧
    getNew2OldCall [true] = getNew2OldCall [true] ∧
    (rowIdsToRowSplitsCall [0] [0, 0]).1 = [0] ∧
    (getNew2OldCall [true]).1 = [true] :=
  claim_C8_deterministic [0] [0] [0, 0] [0, 0] [true] [true] rfl rfl rfl

/-- C9: the wrapper narrows the buffer sizes to int32 — `num_elems` equals the
row-ids length iff that length is below `2^31`, and the derived `num_rows` is
a consistent row count (`≥ 0` with `len(row_splits) = num_rows + 1`) iff the
row-splits buffer is non-empty with length at most `2^31`; a zero-length
row-splits buffer yields `num_rows = -1`, lengths of `2^31` and beyond wrap,
and the wrapper forwards these values to the kernel without rejection. -/
theorem claim_C9_narrowing :
    (∀ (rowIds rowSplitsBuf : List ℕ),
      (bindingInvocation rowIds rowSplitsBuf).num_elems = toInt32 rowIds.length ∧
      (bindingInvocation rowIds rowSplitsBuf).num_rows =
        toInt32 ((rowSplitsBuf.length : ℤ) - 1) ∧
      ((bindingInvocation rowIds rowSplitsBuf).num_elems = (rowIds.length : ℤ) ↔
        (rowIds.length : ℤ) < 2 ^ 31) ∧
      ((0 ≤ (bindingInvocation rowIds rowSplitsBuf).num_rows ∧
          (rowSplitsBuf.length : ℤ) =
            (bindingInvocation rowIds rowSplitsBuf).num_rows + 1) ↔
        (1 ≤ rowSplitsBuf.length ∧ (rowSplitsBuf.length : ℤ) ≤ 2 ^ 31))) ∧
    (∀ rowIds : List ℕ, (bindingInvocation rowIds []).num_rows = -1) ∧
    toInt32 (2 ^ 31) = -(2 ^ 31) ∧ toInt32 (2 ^ 32) = 0 := by
  refine ⟨?_, ?_, by decide, by decide⟩
  · intro rowIds rowSplitsBuf
    refine ⟨rfl, rfl, ?_, ?_⟩
    · constructor
      · intro h
        exact (toInt32_eq_self.mp h).2
      · intro h
        have : (0 : ℤ) ≤ (rowIds.length : ℤ) := Int.natCast_nonneg _
        exact toInt32_eq_self.mpr ⟨by omega, h⟩
    · have hbd := toInt32_bounds ((rowSplitsBuf.length : ℤ) - 1)
      have hnn : (0 : ℤ) ≤ (rowSplitsBuf.length : ℤ) := Int.natCast_nonneg _
      constructor
      · rintro ⟨hge, heq⟩
        have hge' : (0 : ℤ) ≤ toInt32 ((rowSplitsBuf.length : ℤ) - 1) := hge
        have heq' : (rowSplitsBuf.length : ℤ) =
            toInt32 ((rowSplitsBuf.length : ℤ) - 1) + 1 := heq
        have h1 : (1 : ℤ) ≤ (rowSplitsBuf.length : ℤ) := by omega
        exact ⟨by exact_mod_cast h1, by omega⟩
      · rintro ⟨h1, h2⟩
        have h1' : (1 : ℤ) ≤ (rowSplitsBuf.length : ℤ) := by exact_mod_cast h1
        have hb : toInt32 ((rowSplitsBuf.length : ℤ) - 1) =
            (rowSplitsBuf.length : ℤ) - 1 :=
          toInt32_eq_self.mpr ⟨by omega, by omega⟩
        constructor
        · show (0 : ℤ) ≤ toInt32 ((rowSplitsBuf.length : ℤ) - 1)
          omega
        · show (rowSplitsBuf.length : ℤ) = toInt32 ((rowSplitsBuf.length : ℤ) - 1) + 1
          omega
  · intro rowIds
    show toInt32 (((([] : List ℕ)).length : ℤ) - 1) = -1
    decide

/-- C10: neither operation modifies its input buffer — after a call the
row-ids buffer, resp. the mask, holds exactly its pre-call contents. -/
theorem claim_C10_inputs_unchanged (rowIds rowSplitsBuf : List ℕ) (keep : List Bool) :
    (rowIdsToRowSplitsCall rowIds rowSplitsBuf).1 = rowIds ∧
    (getNew2OldCall keep).1 = keep := by
  refine ⟨?_, rfl⟩
  rcases hres : rowIdsToRowSplits rowIds (rowSplitsBuf.length - 1) with e | out <;>
    simp [rowIdsToRowSplitsCall, hres]

end TextSearch
